import Mathlib

/-!
Shallow embedding of `pong_conv/main.go` (repository `rl-agents`).

The program trains a recurrent convolutional policy on Pong with TRPO.
Weights live in flat `anyvec` vectors; we model them as `List ℚ` and the
`anyvec` matrix helpers (`SumRows`, `SumCols`, `AddRepeated`, `AddChunks`,
`Scale`) by their documented row-major semantics.
-/

namespace PongConv

/-- View of a flat vector as a row-major matrix: consecutive chunks of `n`
elements (the final chunk may be shorter when `n` does not divide the
length). -/

def chunks {α : Type} : ℕ → List α → List (List α)
  | 0, _ => []
  | _ + 1, [] => []
  | m + 1, x :: xs => (x :: xs).take (m + 1) :: chunks (m + 1) ((x :: xs).drop (m + 1))
termination_by _ l => l.length
decreasing_by
  simp [List.length_drop]
  omega

/-- `Vector.Scale` from anyvec: multiply every component by a scalar. -/

def scaleVec (v : List ℚ) (c : ℚ) : List ℚ := v.map (fun x => x * c)

/-- `anyvec.SumRows(v, cols)`: view `v` as a row-major matrix with `cols`
columns and add the rows together, yielding the vector of column totals. -/

def sumRows (v : List ℚ) (cols : ℕ) : List ℚ :=
  (chunks cols v).foldr (fun r acc => List.zipWith (· + ·) r acc)
    (List.replicate cols 0)

/-- `anyvec.SumCols(v, rows)`: view `v` as a row-major matrix with `rows`
rows and add the columns together, yielding the vector of row totals. -/

def sumCols (v : List ℚ) (rows : ℕ) : List ℚ :=
  (chunks (v.length / rows) v).map List.sum

/-- `anyvec.AddRepeated(dst, src)`: add `src` to `dst`, tiling `src` as many
times as needed to cover `dst`. -/

def addRepeated (dst src : List ℚ) : List ℚ :=
  ((chunks src.length dst).map (fun r => List.zipWith (· + ·) r src)).flatten

/-- `anyvec.AddChunks(dst, src)`: divide `dst` into `src.length` equal
chunks and add the scalar `src[i]` to every component of chunk `i`. -/

def addChunks (dst src : List ℚ) : List ℚ :=
  (List.zipWith (fun r m => r.map (fun x => x + m))
    (chunks (dst.length / src.length) dst) src).flatten

/-- `anyconv.Conv`: a convolutional layer.  `filters` is the flat filter
vector: `filterCount` blocks, each a row-major (spatial × inputDepth)
matrix with the input depth as the innermost dimension. -/

structure Conv where
  filters : List ℚ
  biases : List ℚ
  inputDepth : ℕ
  filterCount : ℕ
  kernelW : ℕ
  kernelH : ℕ
  strideX : ℕ
  strideY : ℕ
deriving DecidableEq

/-- `anynet.FC`: a fully-connected layer.  `weights` is a row-major
`outCount × inCount` matrix, one row per output unit. -/

structure FC where
  inCount : ℕ
  outCount : ℕ
  weights : List ℚ
  biases : List ℚ
deriving DecidableEq

/-- Body of the per-filter loop in `projectOutSolidColors` (`*anyconv.Conv`
arm): compute the per-input-channel totals (`SumRows`), scale them by
`-1/(filterSize/inDepth)` and add the resulting negated means tiled over
the filter (`AddRepeated`). -/

def projectFilter (inDepth spatialRows : ℕ) (filter : List ℚ) : List ℚ :=
  addRepeated filter (scaleVec (sumRows filter inDepth) (-1 / (spatialRows : ℚ)))

/-- The `*anyconv.Conv` arm of `projectOutSolidColors`: for each of the
`FilterCount` slices of length `filterSize = Filters.Len()/FilterCount`,
subtract the per-input-channel mean over the filter. -/

def projectOutSolidColorsConv (c : Conv) : Conv :=
  let filterSize := c.filters.length / c.filterCount
  { c with filters :=
      ((List.range c.filterCount).map (fun i =>
        projectFilter c.inputDepth (filterSize / c.inputDepth)
          ((c.filters.drop (i * filterSize)).take filterSize))).flatten }

/-- The `*anynet.FC` arm of `projectOutSolidColors`: subtract from each
output unit's row its mean weight (`SumCols`, `Scale` by `-1/InCount`,
`AddChunks`). -/

def projectOutSolidColorsFC (f : FC) : FC :=
  let negMean := scaleVec (sumCols f.weights f.outCount) (-1 / (f.inCount : ℚ))
  { f with weights := addChunks f.weights negMean }

/-- A layer of the markup (vision) net.  `FromMarkup` on the source's
markup string yields a linear scaling layer, two convolutions, a
fully-connected layer and `Tanh` activations. -/

inductive Layer
  | conv (c : Conv)
  | fc (f : FC)
  | linearScale (s : ℚ)
  | tanh
deriving DecidableEq

/-- `projectOutSolidColors`: type-switch on the layer.  Convolutional and
fully-connected layers get their per-output-unit input mean subtracted;
every other layer kind is untouched. -/

def projectOutSolidColors : Layer → Layer
  | .conv c => .conv (projectOutSolidColorsConv c)
  | .fc f => .fc (projectOutSolidColorsFC f)
  | l => l

/-- `setupVisionLayers`: apply `projectOutSolidColors` to every layer of
the markup net (the `boostBiases` call is commented out in the source). -/

def setupVisionLayers (net : List Layer) : List Layer :=
  net.map projectOutSolidColors

/-- `anyrnn.Vanilla`: a single recurrent cell with input weights, state
weights, biases and a start state. -/

structure Vanilla where
  inCount : ℕ
  outCount : ℕ
  inputWeights : List ℚ
  stateWeights : List ℚ
  biases : List ℚ
  startState : List ℚ
deriving DecidableEq

/-- `setupVanilla` (defined in the source but never called): project the
solid-color means out of the input weights and zero the state weights via
`Scale(0)`. -/

def setupVanilla (v : Vanilla) : Vanilla :=
  let fc := projectOutSolidColorsFC
    { inCount := v.inCount, outCount := v.outCount,
      weights := v.inputWeights, biases := [] }
  { v with inputWeights := fc.weights, stateWeights := scaleVec v.stateWeights 0 }

/-- `anynet.NewFCZero(creator, in, out)`: a fully-connected layer whose
weights and biases are all zero ("a zero-initialized linear head" in the
spec). -/

def NewFCZero (inCount outCount : ℕ) : FC :=
  { inCount := inCount, outCount := outCount,
    weights := List.replicate (outCount * inCount) 0,
    biases := List.replicate outCount 0 }

/-- Modelled from the spec: `PreprocessedSize` is declared in the
repository's preprocessing file, which is not under `src/`; the markup
input is `w=80, h=105, d=2`. -/

def PreprocessedSize : ℕ := 80 * 105 * 2

/-- Freshly initialized weights that `anyconv.FromMarkup` and
`anyrnn.NewVanilla` produce (randomized initializers; the values are
arbitrary here, the shapes are fixed by the markup). -/

structure NetInit where
  conv1Filters : List ℚ
  conv1Biases : List ℚ
  conv2Filters : List ℚ
  conv2Biases : List ℚ
  fcIn : ℕ
  fcWeights : List ℚ
  fcBiases : List ℚ
  vanilla : Vanilla
deriving DecidableEq

/-- The net built by `anyconv.FromMarkup` on the source's markup string:
`Linear(scale=0.01)`, `Conv(w=4,h=4,n=16,sx=2,sy=2)`, `Tanh`,
`Conv(w=4,h=4,n=32,sx=2,sy=2)`, `Tanh`, `FC(out=128)`, `Tanh`.  The first
conv sees depth 2, the second the 16 maps of the first; the FC input size
is the flattened output of the conv stack (kept abstract as `init.fcIn`). -/

def markupNet (init : NetInit) : List Layer :=
  [Layer.linearScale (1 / 100),
   Layer.conv { filters := init.conv1Filters, biases := init.conv1Biases,
                inputDepth := 2, filterCount := 16,
                kernelW := 4, kernelH := 4, strideX := 2, strideY := 2 },
   Layer.tanh,
   Layer.conv { filters := init.conv2Filters, biases := init.conv2Biases,
                inputDepth := 16, filterCount := 32,
                kernelW := 4, kernelH := 4, strideX := 2, strideY := 2 },
   Layer.tanh,
   Layer.fc { inCount := init.fcIn, outCount := 128,
              weights := init.fcWeights, biases := init.fcBiases },
   Layer.tanh]

/-- The `anyrnn.Stack` built by `loadOrCreateNetwork`: stacker block,
vision net (as a `LayerBlock`), `NewVanilla(creator, 128, 128, Tanh)`,
and a `NewFCZero(creator, 128, 6)` head. -/

structure Stack where
  stackerCount : ℕ
  stackerSize : ℕ
  visionNet : List Layer
  vanilla : Vanilla
  head : FC
deriving DecidableEq

/-- Fresh construction branch of `loadOrCreateNetwork`: build the markup
net, run `setupVisionLayers` on it, and stack it with the stacker, a
vanilla cell and the zero head. -/

def freshNetwork (init : NetInit) : Stack :=
  { stackerCount := 1,
    stackerSize := PreprocessedSize,
    visionNet := setupVisionLayers (markupNet init),
    vanilla := init.vanilla,
    head := NewFCZero 128 6 }

/-- `loadOrCreateNetwork`: try `serializer.LoadAny`; on success return the
loaded stack unchanged, on any error construct a fresh network. -/

def loadOrCreateNetwork (loadResult : Except String Stack) (init : NetInit) : Stack :=
  match loadResult with
  | Except.ok res => res
  | Except.error _ => freshNetwork init

/-- Per-layer statement of the zero-mean property: every convolutional
filter slice and every fully-connected output row sums to zero.  Layers
without input weights satisfy it vacuously. -/

def zeroInputMean : Layer → Prop
  | .conv c => ∀ f ∈ chunks (c.filters.length / c.filterCount) c.filters, f.sum = 0
  | .fc f => ∀ row ∈ chunks f.inCount f.weights, row.sum = 0
  | _ => True

/-- `Host = "localhost:5001"` from the source's const block. -/
def Host : String := "localhost:5001"

/-- `ParallelEnvs = 8` from the source's const block. -/
def ParallelEnvs : ℕ := 8

/-- `BatchSteps = 100000` from the source's const block. -/
def BatchSteps : ℕ := 100000

/-- `NetworkSaveFile = "trained_policy"` from the source's const block. -/
def NetworkSaveFile : String := "trained_policy"

/-- Modelled from the spec: `anyrl.RolloutSet` (library code outside
`src/`) is a batch of trajectories; we keep the per-trajectory reward
sequences, which is all the claims need. -/
structure RolloutSet where
  rewards : List (List ℚ)
deriving DecidableEq

/-- Modelled from the spec: `RolloutSet.NumSteps` is the total step count,
the sum of the trajectory lengths. -/
def RolloutSet.numSteps (r : RolloutSet) : ℕ :=
  (r.rewards.map List.length).sum

/-- The union of (trajectory, timestep) reward samples of a rollout set. -/
def RolloutSet.rewardSamples (r : RolloutSet) : List ℚ :=
  r.rewards.flatten

/-- Modelled from the spec: `anyrl.PackRolloutSets` concatenates the
trajectories of all input sets in order (purely structural merge). -/
def PackRolloutSets (rs : List RolloutSet) : RolloutSet :=
  { rewards := (rs.map RolloutSet.rewards).flatten }

/-- Modelled from the spec: the reward mean over a list of samples. -/
def meanSpec (xs : List ℚ) : ℚ := xs.sum / xs.length

/-- Modelled from the spec: the "standard unbiased estimator" of the
variance (Bessel-corrected, dividing by `n - 1`). -/
def varianceUnbiased (xs : List ℚ) : ℚ :=
  (xs.map (fun x => (x - meanSpec xs) ^ 2)).sum / ((xs.length : ℚ) - 1)

/-- The population variance (dividing by `n`), for comparison. -/
def variancePop (xs : List ℚ) : ℚ :=
  (xs.map (fun x => (x - meanSpec xs) ^ 2)).sum / (xs.length : ℚ)

/-- The experience-gathering loop of one training iteration: while
`steps < target`, call `roller.Rollout`, add `rollout.NumSteps()` to
`steps` and append the rollout.  The stream of rollouts the roller would
return is passed as a list. -/
def gatherRollouts (target : ℕ) : ℕ → List RolloutSet → List RolloutSet
  | _, [] => []
  | steps, r :: rest =>
    if steps < target then r :: gatherRollouts target (steps + r.numSteps) rest
    else []

/-- `anypg.QJudger{Discount: 0.99}`: the discounted action-value judge. -/
structure QJudger where
  discount : ℚ
deriving DecidableEq

/-- `anyrl.FracReducer{Frac: 0.1}`: curvature estimation on a subsampled
fraction of the batch. -/
structure FracReducer where
  frac : ℚ
deriving DecidableEq

/-- Configuration constants of `anypg.NaturalPG` as set in `main`. -/
structure NaturalPG where
  iters : ℕ
  reduce : FracReducer
  actionJudger : QJudger
deriving DecidableEq

/-- Configuration constants of `anypg.TRPO` as set in `main`. -/
structure TRPO where
  naturalPG : NaturalPG
deriving DecidableEq

/-- The TRPO optimizer as configured in `main`: `Iters: 10`,
`Reduce: FracReducer{Frac: 0.1}`, `ActionJudger: QJudger{Discount: 0.99}`. -/
def trpo : TRPO :=
  { naturalPG :=
    { iters := 10,
      reduce := { frac := 1 / 10 },
      actionJudger := { discount := 99 / 100 } } }

/-- The two goroutines that can touch the policy parameters. -/
inductive Owner
  | trainer
  | main
deriving DecidableEq

/-- Program counter of the training goroutine, one iteration of the loop:
run TRPO (compute the gradient), `trainLock.Lock()`, apply the gradient
(`grad.AddToVars`, modelled as two separate writes so that a mid-update
state exists), `trainLock.Unlock()`. -/
inductive TrainPhase
  | run
  | lockT
  | apply1
  | apply2
  | unlockT
deriving DecidableEq

/-- Program counter of the main goroutine: wait for the interrupt signal,
`trainLock.Lock()`, `serializer.SaveAny`, done (process exit). -/
inductive MainPhase
  | wait
  | lockM
  | save
  | done
deriving DecidableEq

/-- Shared state of the two goroutines.  The policy parameters are
modelled as two halves `params.1, params.2`; a full gradient application
increments both, so a consistent snapshot has equal halves. -/
structure SysState where
  lock : Option Owner
  tpc : TrainPhase
  mpc : MainPhase
  params : ℤ × ℤ
  saved : Option (ℤ × ℤ)
deriving DecidableEq

/-- Interleaving semantics of the training goroutine and the shutdown
path.  The mutex admits an acquire only when free; `Unlock` and the save
itself do not consult the lock (as in the source). -/
inductive SysStep : SysState → SysState → Prop
  | computeGrad (l : Option Owner) (mp : MainPhase) (p : ℤ × ℤ)
      (sv : Option (ℤ × ℤ)) :
      SysStep ⟨l, TrainPhase.run, mp, p, sv⟩ ⟨l, TrainPhase.lockT, mp, p, sv⟩
  | acquireT (mp : MainPhase) (p : ℤ × ℤ) (sv : Option (ℤ × ℤ)) :
      SysStep ⟨none, TrainPhase.lockT, mp, p, sv⟩
        ⟨some Owner.trainer, TrainPhase.apply1, mp, p, sv⟩
  | applyFst (l : Option Owner) (mp : MainPhase) (p : ℤ × ℤ) (sv : Option (ℤ × ℤ)) :
      SysStep ⟨l, TrainPhase.apply1, mp, p, sv⟩
        ⟨l, TrainPhase.apply2, mp, (p.1 + 1, p.2), sv⟩
  | applySnd (l : Option Owner) (mp : MainPhase) (p : ℤ × ℤ) (sv : Option (ℤ × ℤ)) :
      SysStep ⟨l, TrainPhase.apply2, mp, p, sv⟩
        ⟨l, TrainPhase.unlockT, mp, (p.1, p.2 + 1), sv⟩
  | releaseT (l : Option Owner) (mp : MainPhase) (p : ℤ × ℤ) (sv : Option (ℤ × ℤ)) :
      SysStep ⟨l, TrainPhase.unlockT, mp, p, sv⟩ ⟨none, TrainPhase.run, mp, p, sv⟩
  | signal (l : Option Owner) (t : TrainPhase) (p : ℤ × ℤ) (sv : Option (ℤ × ℤ)) :
      SysStep ⟨l, t, MainPhase.wait, p, sv⟩ ⟨l, t, MainPhase.lockM, p, sv⟩
  | acquireM (t : TrainPhase) (p : ℤ × ℤ) (sv : Option (ℤ × ℤ)) :
      SysStep ⟨none, t, MainPhase.lockM, p, sv⟩
        ⟨some Owner.main, t, MainPhase.save, p, sv⟩
  | doSave (l : Option Owner) (t : TrainPhase) (p : ℤ × ℤ) (sv : Option (ℤ × ℤ)) :
      SysStep ⟨l, t, MainPhase.save, p, sv⟩ ⟨l, t, MainPhase.done, p, some p⟩

/-- Initial state: lock free, trainer about to compute, main waiting,
parameters consistent, nothing saved. -/
def initSysState : SysState :=
  { lock := none, tpc := TrainPhase.run, mpc := MainPhase.wait,
    params := (0, 0), saved := none }

/-- Reachability from the initial state under the interleaving. -/
def Reach (s : SysState) : Prop :=
  Relation.ReflTransGen SysStep initSysState s

/-- A checkpoint value is consistent when its two halves agree (it does
not mix pre-update and post-update parameters). -/
def savedOk : Option (ℤ × ℤ) → Prop
  | none => True
  | some p => p.1 = p.2

/-- The saved checkpoint, if any, is a consistent snapshot. -/
def savedConsistent (s : SysState) : Prop :=
  savedOk s.saved

/-- Inductive invariant of the interleaving: lock ownership matches the
two critical sections, the parameter halves disagree (by exactly the
in-flight increment) only between the two apply writes, and any saved
checkpoint is consistent. -/
def StateInv (s : SysState) : Prop :=
  ((s.tpc = TrainPhase.apply1 ∨ s.tpc = TrainPhase.apply2
      ∨ s.tpc = TrainPhase.unlockT) → s.lock = some Owner.trainer)
  ∧ ((s.mpc = MainPhase.save ∨ s.mpc = MainPhase.done) →
      s.lock = some Owner.main)
  ∧ (s.tpc = TrainPhase.apply2 → s.params.1 = s.params.2 + 1)
  ∧ (s.tpc ≠ TrainPhase.apply2 → s.params.1 = s.params.2)
  ∧ savedOk s.saved

/-- A reachable state used to refute the "lock held from gradient
computed through gradient applied" reading: the trainer has computed a
gradient (it sits at the `Lock` call), and a save has already executed in
between. -/
def c2TraceState : SysState :=
  { lock := some Owner.main, tpc := TrainPhase.lockT, mpc := MainPhase.done,
    params := (0, 0), saved := some (0, 0) }

/-- In every reachable state where the gradient is being applied, the
training goroutine holds the lock. -/
def LockHeldDuringApply : Prop :=
  ∀ s : SysState, Reach s →
    (s.tpc = TrainPhase.apply1 ∨ s.tpc = TrainPhase.apply2) →
    s.lock = some Owner.trainer

/-- A live gym connection (`gym.Make(Host, "Pong-v0")` handle). -/
structure GymClient where
  id : ℕ
deriving DecidableEq

/-- An `anyrl.Env` produced by `anyrl.GymEnv` from a client. -/
structure GymEnvHandle where
  client : GymClient
deriving DecidableEq

/-- Modelled from the spec: `PreprocessEnv` (declared in the repository's
preprocessing file, not under `src/`) wraps one environment with its own
preprocessor state. -/
structure PreprocessEnvW where
  env : GymEnvHandle
deriving DecidableEq

/-- One iteration of the environment-construction loop: connect to the
gym server, then wrap the client as an `anyrl.Env`; either failure is
passed to `must`, which panics (modelled as an `Except` error). -/
def makeEnvSlot (mkClient : ℕ → Except String GymClient)
    (mkEnv : GymClient → Except String GymEnvHandle) (i : ℕ) :
    Except String PreprocessEnvW :=
  match mkClient i with
  | Except.error e => Except.error e
  | Except.ok c =>
    match mkEnv c with
    | Except.error e => Except.error e
    | Except.ok env => Except.ok { env := env }

/-- The environment-construction loop from slot `i`, `n` slots remaining;
the first failure aborts the whole startup. -/
def buildEnvs (mkClient : ℕ → Except String GymClient)
    (mkEnv : GymClient → Except String GymEnvHandle) :
    ℕ → ℕ → Except String (List PreprocessEnvW)
  | _, 0 => Except.ok []
  | i, n + 1 =>
    match makeEnvSlot mkClient mkEnv i with
    | Except.error e => Except.error e
    | Except.ok env =>
      match buildEnvs mkClient mkEnv (i + 1) n with
      | Except.error e => Except.error e
      | Except.ok rest => Except.ok (env :: rest)

/-- The `for i := 0; i < ParallelEnvs; i++` pool construction in `main`. -/
def createEnvironments (mkClient : ℕ → Except String GymClient)
    (mkEnv : GymClient → Except String GymEnvHandle) :
    Except String (List PreprocessEnvW) :=
  buildEnvs mkClient mkEnv 0 ParallelEnvs

/-- Whether an `Except` result is a success. -/
def isOk {α : Type} : Except String α → Bool
  | Except.ok _ => true
  | Except.error _ => false

/-- Modelled from the spec: a concrete lossless compressor standing for
the flate compression of `lazyseq.CompressedUint8Tape` (Go standard
library and lazyseq code, outside `src/`).  Run-length encodes a byte
sequence. -/
def rleEncode {α : Type} [DecidableEq α] : List α → List (ℕ × α)
  | [] => []
  | x :: xs =>
    match rleEncode xs with
    | [] => [(1, x)]
    | (n, y) :: rest =>
      if x = y then (n + 1, y) :: rest else (1, x) :: (n, y) :: rest

/-- Decoder for `rleEncode`. -/
def rleDecode {α : Type} : List (ℕ × α) → List α
  | [] => []
  | (n, y) :: rest => List.replicate n y ++ rleDecode rest

/-- The write side of the input tape: every appended observation batch
(uint8 data) is stored compressed. -/
def tapeStore (batches : List (List (Fin 256))) : List (List (ℕ × Fin 256)) :=
  batches.map rleEncode

/-- The read side of the input tape: batches are decompressed
transparently, in order, during optimization. -/
def tapeRead (stored : List (List (ℕ × Fin 256))) : List (List (Fin 256)) :=
  stored.map rleDecode

/-- Modelled from the spec: the forward pass of a fully-connected layer
(`anynet.FC`, outside `src/`): `out_j = sum_i W[j][i] * x_i + b_j`. -/
def FC.apply (f : FC) (x : List ℚ) : List ℚ :=
  (List.range f.outCount).map (fun j =>
    ((List.range f.inCount).map (fun i =>
      f.weights.getD (j * f.inCount + i) 0 * x.getD i 0)).sum
    + f.biases.getD j 0)

/-- Modelled from the spec: the `anyrl.Softmax` action distribution over
logits, parameterized by the exponential map `e` (for the real softmax,
`e = exp`; all we use is `e 0 ≠ 0`). -/
def softmax (e : ℚ → ℚ) (xs : List ℚ) : List ℚ :=
  xs.map (fun x => e x / (xs.map e).sum)

/-- Concrete initializer used to witness C1. -/
def c1WitnessInit : NetInit :=
  { conv1Filters := List.replicate 512 1,
    conv1Biases := List.replicate 16 0,
    conv2Filters := List.replicate 8192 1,
    conv2Biases := List.replicate 32 0,
    fcIn := 2,
    fcWeights := List.replicate 256 1,
    fcBiases := List.replicate 128 0,
    vanilla :=
      { inCount := 128, outCount := 128, inputWeights := [],
        stateWeights := [], biases := [], startState := [] } }

/-- Concrete rollout stream used to witness C3: one rollout set holding a
single 100000-step trajectory. -/
def c3Stream : List RolloutSet :=
  [{ rewards := [List.replicate 100000 0] }]

/-- Concrete (degenerate) initializer used to witness C10. -/
def c10Init : NetInit :=
  { conv1Filters := [], conv1Biases := [], conv2Filters := [],
    conv2Biases := [], fcIn := 0, fcWeights := [], fcBiases := [],
    vanilla :=
      { inCount := 0, outCount := 0, inputWeights := [],
        stateWeights := [], biases := [], startState := [] } }

theorem chunks_nil {α : Type} (n : ℕ) : chunks n ([] : List α) = [] := by
  cases n <;> simp [chunks]

theorem chunks_cons_of {α : Type} {n : ℕ} {l : List α} (hn : n ≠ 0) (hl : l ≠ []) :
    chunks n l = l.take n :: chunks n (l.drop n) := by
  cases n with
  | zero => exact absurd rfl hn
  | succ m =>
    cases l with
    | nil => exact absurd rfl hl
    | cons x xs => simp [chunks]

theorem chunks_spec {α : Type} {n : ℕ} (hn : 0 < n) :
    ∀ (rows : ℕ) (v : List α), v.length = rows * n →
      (chunks n v).length = rows ∧ (∀ r ∈ chunks n v, r.length = n) ∧
        (chunks n v).flatten = v := by
  intro rows
  induction rows with
  | zero =>
    intro v hv
    have hvnil : v = [] := List.eq_nil_of_length_eq_zero (by simpa using hv)
    subst hvnil
    simp [chunks_nil]
  | succ k ih =>
    intro v hv
    have hvne : v ≠ [] := by
      intro hnil
      subst hnil
      simp at hv
      omega
    have hnn : n ≤ v.length := by
      rw [hv]
      calc n = 1 * n := (one_mul n).symm
        _ ≤ (k + 1) * n := Nat.mul_le_mul_right n (by omega)
    have htake : (v.take n).length = n := by
      rw [List.length_take]
      exact min_eq_left hnn
    have hdrop : (v.drop n).length = k * n := by
      rw [List.length_drop, hv]
      have : (k + 1) * n = k * n + n := by ring
      omega
    obtain ⟨h1, h2, h3⟩ := ih (v.drop n) hdrop
    rw [chunks_cons_of hn.ne' hvne]
    refine ⟨by simp [h1], ?_, ?_⟩
    · intro r hr
      rcases List.mem_cons.mp hr with hr | hr
      · rw [hr]; exact htake
      · exact h2 r hr
    · simp [h3]

theorem chunks_flatten_of {α : Type} {n : ℕ} (hn : 0 < n) :
    ∀ (L : List (List α)), (∀ r ∈ L, r.length = n) → chunks n L.flatten = L := by
  intro L
  induction L with
  | nil => intro _; simp [chunks_nil]
  | cons r L ih =>
    intro h
    have hr : r.length = n := h r (List.mem_cons_self r L)
    have hrne : (r ++ L.flatten) ≠ [] := by
      have : r ≠ [] := by
        intro hnil
        rw [hnil] at hr
        simp at hr
        omega
      simp [this]
    rw [List.flatten_cons, chunks_cons_of hn.ne' hrne]
    have htake : (r ++ L.flatten).take n = r := by
      rw [← hr]
      exact List.take_left r L.flatten
    have hdrop : (r ++ L.flatten).drop n = L.flatten := by
      rw [← hr]
      exact List.drop_left r L.flatten
    rw [htake, hdrop, ih (fun x hx => h x (List.mem_cons_of_mem r hx))]

theorem scaleVec_length (v : List ℚ) (c : ℚ) : (scaleVec v c).length = v.length := by
  simp [scaleVec]

theorem scaleVec_sum (v : List ℚ) (c : ℚ) : (scaleVec v c).sum = v.sum * c := by
  induction v with
  | nil => simp [scaleVec]
  | cons x xs ih =>
    simp [scaleVec] at ih ⊢
    rw [ih]
    ring

theorem sum_zipWith_add (a : List ℚ) :
    ∀ b : List ℚ, a.length = b.length →
      (List.zipWith (· + ·) a b).sum = a.sum + b.sum := by
  induction a with
  | nil =>
    intro b hb
    have : b = [] := List.eq_nil_of_length_eq_zero (by simpa using hb.symm)
    simp [this]
  | cons x xs ih =>
    intro b hb
    cases b with
    | nil => simp at hb
    | cons y ys =>
      have : xs.length = ys.length := by simpa using hb
      simp [ih ys this]
      ring

theorem sum_map_add_const (l : List ℚ) (m : ℚ) :
    (l.map (fun x => x + m)).sum = l.sum + l.length * m := by
  induction l with
  | nil => simp
  | cons x xs ih =>
    simp [ih]
    ring

theorem foldr_zip_length (n : ℕ) :
    ∀ L : List (List ℚ), (∀ r ∈ L, r.length = n) →
      (L.foldr (fun r acc => List.zipWith (· + ·) r acc)
        (List.replicate n (0:ℚ))).length = n := by
  intro L
  induction L with
  | nil => intro _; simp
  | cons r L ih =>
    intro h
    have hr : r.length = n := h r (List.mem_cons_self r L)
    have hL := ih (fun x hx => h x (List.mem_cons_of_mem r hx))
    simp [List.length_zipWith, hr, hL]

theorem foldr_zip_sum (n : ℕ) :
    ∀ L : List (List ℚ), (∀ r ∈ L, r.length = n) →
      (L.foldr (fun r acc => List.zipWith (· + ·) r acc)
        (List.replicate n (0:ℚ))).sum = (L.map List.sum).sum := by
  intro L
  induction L with
  | nil => intro _; simp
  | cons r L ih =>
    intro h
    have hr : r.length = n := h r (List.mem_cons_self r L)
    have hmem := fun x hx => h x (List.mem_cons_of_mem r hx)
    have hlen := foldr_zip_length n L hmem
    simp only [List.foldr_cons, List.map_cons, List.sum_cons]
    rw [sum_zipWith_add _ _ (by rw [hr, hlen]), ih hmem]

theorem sumRows_length {v : List ℚ} {cols rows : ℕ} (hc : 0 < cols)
    (hv : v.length = rows * cols) : (sumRows v cols).length = cols := by
  obtain ⟨_, h2, _⟩ := chunks_spec hc rows v hv
  exact foldr_zip_length cols (chunks cols v) h2

theorem sumRows_sum {v : List ℚ} {cols rows : ℕ} (hc : 0 < cols)
    (hv : v.length = rows * cols) : (sumRows v cols).sum = v.sum := by
  obtain ⟨_, h2, h3⟩ := chunks_spec hc rows v hv
  rw [sumRows, foldr_zip_sum cols (chunks cols v) h2, ← List.sum_flatten, h3]

theorem sum_map_row_add (c : ℚ) :
    ∀ L : List (List ℚ),
      ((L.map (fun r => r.sum + c))).sum = (L.map List.sum).sum + L.length * c := by
  intro L
  induction L with
  | nil => simp
  | cons r L ih =>
    simp [ih]
    ring

theorem addRepeated_length {dst src : List ℚ} (rows : ℕ) (hs : 0 < src.length)
    (h : dst.length = rows * src.length) :
    (addRepeated dst src).length = dst.length := by
  obtain ⟨h1, h2, _⟩ := chunks_spec hs rows dst h
  rw [addRepeated, List.length_flatten, List.map_map]
  have : ∀ r ∈ chunks src.length dst,
      ((List.length ∘ fun r => List.zipWith (· + ·) r src) r) = src.length := by
    intro r hr
    simp [List.length_zipWith, h2 r hr]
  rw [List.map_congr_left this, List.map_const', List.sum_replicate, h1, h,
    smul_eq_mul]

theorem addRepeated_sum {dst src : List ℚ} (rows : ℕ) (hs : 0 < src.length)
    (h : dst.length = rows * src.length) :
    (addRepeated dst src).sum = dst.sum + rows * src.sum := by
  obtain ⟨h1, h2, h3⟩ := chunks_spec hs rows dst h
  rw [addRepeated, List.sum_flatten, List.map_map]
  have : ∀ r ∈ chunks src.length dst,
      ((List.sum ∘ fun r => List.zipWith (· + ·) r src) r) = r.sum + src.sum := by
    intro r hr
    simp only [Function.comp_apply]
    exact sum_zipWith_add r src (by rw [h2 r hr])
  rw [List.map_congr_left this, sum_map_row_add, h1, ← List.sum_flatten, h3]

theorem projectFilter_sum_zero (filter : List ℚ) (cols rows : ℕ) (hc : 0 < cols)
    (hr : 0 < rows) (hf : filter.length = rows * cols) :
    (projectFilter cols rows filter).sum = 0 := by
  have hslen : (scaleVec (sumRows filter cols) (-1 / (rows : ℚ))).length = cols := by
    rw [scaleVec_length, sumRows_length hc hf]
  have hssum : (scaleVec (sumRows filter cols) (-1 / (rows : ℚ))).sum
      = filter.sum * (-1 / (rows : ℚ)) := by
    rw [scaleVec_sum, sumRows_sum hc hf]
  rw [projectFilter,
    addRepeated_sum rows (by rw [hslen]; exact hc) (by rw [hslen]; exact hf),
    hssum]
  have hrne : (rows : ℚ) ≠ 0 := Nat.cast_ne_zero.mpr hr.ne'
  field_simp
  ring

theorem projectFilter_length (filter : List ℚ) (cols rows rowsDiv : ℕ) (hc : 0 < cols)
    (hf : filter.length = rows * cols) :
    (projectFilter cols rowsDiv filter).length = filter.length := by
  have hslen : (scaleVec (sumRows filter cols) (-1 / (rowsDiv : ℚ))).length = cols := by
    rw [scaleVec_length, sumRows_length hc hf]
  rw [projectFilter,
    addRepeated_length rows (by rw [hslen]; exact hc) (by rw [hslen]; exact hf)]

theorem projectOutSolidColorsConv_filters_zero (c : Conv) (rows : ℕ)
    (hd : 0 < c.inputDepth) (hr : 0 < rows) (hcnt : 0 < c.filterCount)
    (hl : c.filters.length = c.filterCount * (rows * c.inputDepth)) :
    ∀ f ∈ chunks (rows * c.inputDepth) (projectOutSolidColorsConv c).filters,
      f.sum = 0 := by
  have hfs : c.filters.length / c.filterCount = rows * c.inputDepth := by
    rw [hl]
    exact Nat.mul_div_cancel_left _ hcnt
  have hfsd : rows * c.inputDepth / c.inputDepth = rows := by
    rw [Nat.mul_comm]
    exact Nat.mul_div_cancel_left rows hd
  have hrc : 0 < rows * c.inputDepth := Nat.mul_pos hr hd
  have hslice : ∀ i, i < c.filterCount →
      ((c.filters.drop (i * (rows * c.inputDepth))).take (rows * c.inputDepth)).length
        = rows * c.inputDepth := by
    intro i hi
    rw [List.length_take, List.length_drop, hl]
    have hstep : i * (rows * c.inputDepth) + rows * c.inputDepth
        ≤ c.filterCount * (rows * c.inputDepth) := by
      calc i * (rows * c.inputDepth) + rows * c.inputDepth
          = (i + 1) * (rows * c.inputDepth) := by ring
        _ ≤ c.filterCount * (rows * c.inputDepth) := Nat.mul_le_mul_right _ hi
    omega
  have hproj : (projectOutSolidColorsConv c).filters =
      ((List.range c.filterCount).map (fun i =>
        projectFilter c.inputDepth rows
          ((c.filters.drop (i * (rows * c.inputDepth))).take
            (rows * c.inputDepth)))).flatten := by
    simp only [projectOutSolidColorsConv, hfs, hfsd]
  have hglen : ∀ f2 ∈ (List.range c.filterCount).map (fun i =>
      projectFilter c.inputDepth rows
        ((c.filters.drop (i * (rows * c.inputDepth))).take (rows * c.inputDepth))),
      f2.length = rows * c.inputDepth := by
    intro f2 hf2
    obtain ⟨i, hi, rfl⟩ := List.mem_map.mp hf2
    have hi2 : i < c.filterCount := List.mem_range.mp hi
    rw [projectFilter_length _ _ rows rows hd (by rw [hslice i hi2, Nat.mul_comm])]
    exact hslice i hi2
  intro f hf
  rw [hproj, chunks_flatten_of hrc _ hglen] at hf
  obtain ⟨i, hi, rfl⟩ := List.mem_map.mp hf
  have hi2 : i < c.filterCount := List.mem_range.mp hi
  exact projectFilter_sum_zero _ _ rows hd hr (by rw [hslice i hi2, Nat.mul_comm])

theorem fc_rows_sum_zero (inC : ℕ) (hin : 0 < inC) :
    ∀ R : List (List ℚ), (∀ r ∈ R, r.length = inC) →
      ∀ row ∈ List.zipWith (fun r m => r.map (fun x => x + m)) R
        (scaleVec (R.map List.sum) (-1 / (inC : ℚ))),
        row.sum = 0 := by
  intro R
  induction R with
  | nil => intro _ row hrow; simp [scaleVec] at hrow
  | cons r R ih =>
    intro h row hrow
    have hr : r.length = inC := h r (List.mem_cons_self r R)
    have hmem := fun x hx => h x (List.mem_cons_of_mem r hx)
    simp only [scaleVec, List.map_cons, List.zipWith_cons_cons] at hrow
    rcases List.mem_cons.mp hrow with hrow | hrow
    · rw [hrow, sum_map_add_const, hr]
      have hinne : (inC : ℚ) ≠ 0 := Nat.cast_ne_zero.mpr hin.ne'
      field_simp
      ring
    · exact ih hmem row (by simpa [scaleVec] using hrow)

theorem zip_rows_length (n : ℕ) (s : List ℚ) :
    ∀ R : List (List ℚ), (∀ r ∈ R, r.length = n) →
      ∀ row ∈ List.zipWith (fun r m => r.map (fun x => x + m)) R s,
        row.length = n := by
  intro R
  induction R generalizing s with
  | nil => intro _ row hrow; simp at hrow
  | cons r R ih =>
    intro h row hrow
    cases s with
    | nil => simp at hrow
    | cons m s =>
      simp only [List.zipWith_cons_cons] at hrow
      rcases List.mem_cons.mp hrow with hrow | hrow
      · rw [hrow, List.length_map]
        exact h r (List.mem_cons_self r R)
      · exact ih s (fun x hx => h x (List.mem_cons_of_mem r hx)) row hrow

theorem projectOutSolidColorsFC_rows_zero (f : FC) (hin : 0 < f.inCount)
    (hout : 0 < f.outCount) (hl : f.weights.length = f.outCount * f.inCount) :
    ∀ row ∈ chunks f.inCount (projectOutSolidColorsFC f).weights, row.sum = 0 := by
  obtain ⟨h1, h2, h3⟩ := chunks_spec hin f.outCount f.weights hl
  have hdiv : f.weights.length / f.outCount = f.inCount := by
    rw [hl]; exact Nat.mul_div_cancel_left f.inCount hout
  have hscale_len : (scaleVec (sumCols f.weights f.outCount)
      (-1 / (f.inCount : ℚ))).length = f.outCount := by
    rw [scaleVec_length, sumCols, hdiv, List.length_map, h1]
  have hscale_len2 : (scaleVec ((chunks f.inCount f.weights).map List.sum)
      (-1 / (f.inCount : ℚ))).length = f.outCount := by
    rw [scaleVec_length, List.length_map, h1]
  have hweights : (projectOutSolidColorsFC f).weights =
      (List.zipWith (fun r m => r.map (fun x => x + m)) (chunks f.inCount f.weights)
        (scaleVec ((chunks f.inCount f.weights).map List.sum)
          (-1 / (f.inCount : ℚ)))).flatten := by
    simp only [projectOutSolidColorsFC, addChunks, sumCols, hdiv]
    rw [hscale_len2, hdiv]
  set s := scaleVec ((chunks f.inCount f.weights).map List.sum) (-1 / (f.inCount : ℚ))
    with hs
  have hrows_len := zip_rows_length f.inCount s (chunks f.inCount f.weights) h2
  intro row hrow
  rw [hweights, chunks_flatten_of hin _ hrows_len] at hrow
  exact fc_rows_sum_zero f.inCount hin (chunks f.inCount f.weights) h2 row hrow

theorem projectOutSolidColorsConv_length (c : Conv) (rows : ℕ)
    (hd : 0 < c.inputDepth) (_hr : 0 < rows) (hcnt : 0 < c.filterCount)
    (hl : c.filters.length = c.filterCount * (rows * c.inputDepth)) :
    (projectOutSolidColorsConv c).filters.length = c.filters.length := by
  have hfs : c.filters.length / c.filterCount = rows * c.inputDepth := by
    rw [hl]
    exact Nat.mul_div_cancel_left _ hcnt
  have hfsd : rows * c.inputDepth / c.inputDepth = rows := by
    rw [Nat.mul_comm]
    exact Nat.mul_div_cancel_left rows hd
  have hslice : ∀ i, i < c.filterCount →
      ((c.filters.drop (i * (rows * c.inputDepth))).take (rows * c.inputDepth)).length
        = rows * c.inputDepth := by
    intro i hi
    rw [List.length_take, List.length_drop, hl]
    have hstep : i * (rows * c.inputDepth) + rows * c.inputDepth
        ≤ c.filterCount * (rows * c.inputDepth) := by
      calc i * (rows * c.inputDepth) + rows * c.inputDepth
          = (i + 1) * (rows * c.inputDepth) := by ring
        _ ≤ c.filterCount * (rows * c.inputDepth) := Nat.mul_le_mul_right _ hi
    omega
  have hproj : (projectOutSolidColorsConv c).filters =
      ((List.range c.filterCount).map (fun i =>
        projectFilter c.inputDepth rows
          ((c.filters.drop (i * (rows * c.inputDepth))).take
            (rows * c.inputDepth)))).flatten := by
    simp only [projectOutSolidColorsConv, hfs, hfsd]
  rw [hproj, List.length_flatten, List.map_map]
  have hlens : ∀ i ∈ List.range c.filterCount,
      ((List.length ∘ fun i => projectFilter c.inputDepth rows
        ((c.filters.drop (i * (rows * c.inputDepth))).take (rows * c.inputDepth))) i)
        = rows * c.inputDepth := by
    intro i hi
    have hi2 : i < c.filterCount := List.mem_range.mp hi
    simp only [Function.comp_apply]
    rw [projectFilter_length _ _ rows rows hd (by rw [hslice i hi2, Nat.mul_comm])]
    exact hslice i hi2
  rw [List.map_congr_left hlens, List.map_const', List.sum_replicate,
    List.length_range, smul_eq_mul, hl]

theorem replicate_flatten (m n : ℕ) (a : ℚ) :
    (List.replicate m (List.replicate n a)).flatten = List.replicate (m * n) a := by
  induction m with
  | zero => simp
  | succ k ih =>
    rw [List.replicate_succ, List.flatten_cons, ih, Nat.succ_mul, Nat.add_comm,
      List.replicate_add]

theorem NewFCZero_rows_zero (inC outC : ℕ) (hin : 0 < inC) :
    ∀ row ∈ chunks inC (NewFCZero inC outC).weights, row.sum = 0 := by
  have hw : (NewFCZero inC outC).weights
      = (List.replicate outC (List.replicate inC (0:ℚ))).flatten := by
    rw [NewFCZero, replicate_flatten]
  intro row hrow
  rw [hw, chunks_flatten_of hin _ (by
    intro r hr
    rw [List.eq_of_mem_replicate hr, List.length_replicate])] at hrow
  rw [List.eq_of_mem_replicate hrow, List.sum_replicate, smul_zero]

theorem projectOutSolidColorsConv_zeroInputMean (c : Conv) (rows : ℕ)
    (hd : 0 < c.inputDepth) (hr : 0 < rows) (hcnt : 0 < c.filterCount)
    (hl : c.filters.length = c.filterCount * (rows * c.inputDepth)) :
    zeroInputMean (Layer.conv (projectOutSolidColorsConv c)) := by
  show ∀ f ∈ chunks ((projectOutSolidColorsConv c).filters.length
    / (projectOutSolidColorsConv c).filterCount)
    (projectOutSolidColorsConv c).filters, f.sum = 0
  have hcount : (projectOutSolidColorsConv c).filterCount = c.filterCount := rfl
  rw [hcount, projectOutSolidColorsConv_length c rows hd hr hcnt hl, hl,
    Nat.mul_div_cancel_left _ hcnt]
  exact projectOutSolidColorsConv_filters_zero c rows hd hr hcnt hl

/-- C1: when the checkpoint load fails and a fresh network is constructed,
every convolutional and fully-connected layer of the constructed network
has zero per-output-unit mean weight along the input dimension: each
convolutional filter and each fully-connected output row sums to zero
after `projectOutSolidColors` has run (the zero head satisfies this
trivially). -/
theorem c1_fresh_network_zero_input_mean (e : String) (init : NetInit)
    (h1 : init.conv1Filters.length = 16 * (16 * 2))
    (h2 : init.conv2Filters.length = 32 * (16 * 16))
    (h3 : init.fcWeights.length = 128 * init.fcIn)
    (h4 : 0 < init.fcIn) :
    (∀ layer ∈ (loadOrCreateNetwork (Except.error e) init).visionNet,
      zeroInputMean layer)
    ∧ (∀ row ∈ chunks 128 (loadOrCreateNetwork (Except.error e) init).head.weights,
        row.sum = 0) := by
  constructor
  · intro layer hlayer
    simp only [loadOrCreateNetwork, freshNetwork, setupVisionLayers, markupNet,
      List.map_cons, List.map_nil, projectOutSolidColors] at hlayer
    simp only [List.mem_cons, List.not_mem_nil, or_false] at hlayer
    have hc1 := projectOutSolidColorsConv_zeroInputMean
      { filters := init.conv1Filters, biases := init.conv1Biases,
        inputDepth := 2, filterCount := 16,
        kernelW := 4, kernelH := 4, strideX := 2, strideY := 2 }
      16 (by norm_num) (by norm_num) (by norm_num) h1
    have hc2 := projectOutSolidColorsConv_zeroInputMean
      { filters := init.conv2Filters, biases := init.conv2Biases,
        inputDepth := 16, filterCount := 32,
        kernelW := 4, kernelH := 4, strideX := 2, strideY := 2 }
      16 (by norm_num) (by norm_num) (by norm_num) h2
    have hfc := projectOutSolidColorsFC_rows_zero
      { inCount := init.fcIn, outCount := 128,
        weights := init.fcWeights, biases := init.fcBiases }
      h4 (by norm_num) h3
    rcases hlayer with rfl | rfl | rfl | rfl | rfl | rfl | rfl
    · trivial
    · exact hc1
    · trivial
    · exact hc2
    · trivial
    · exact hfc
    · trivial
  · exact NewFCZero_rows_zero 128 6 (by norm_num)

/-- Witness for C1: the hypotheses of
`c1_fresh_network_zero_input_mean` hold at the concrete initializer
`c1WitnessInit`, and the theorem applies there. -/
theorem c1_fresh_network_zero_input_mean_witness :
    (c1WitnessInit.conv1Filters.length = 16 * (16 * 2)
      ∧ c1WitnessInit.conv2Filters.length = 32 * (16 * 16)
      ∧ c1WitnessInit.fcWeights.length = 128 * c1WitnessInit.fcIn
      ∧ 0 < c1WitnessInit.fcIn)
    ∧ ((∀ layer ∈ (loadOrCreateNetwork (Except.error "no checkpoint")
          c1WitnessInit).visionNet, zeroInputMean layer)
      ∧ (∀ row ∈ chunks 128 (loadOrCreateNetwork (Except.error "no checkpoint")
          c1WitnessInit).head.weights, row.sum = 0)) :=
  ⟨⟨by norm_num [c1WitnessInit], by norm_num [c1WitnessInit],
    by norm_num [c1WitnessInit], by norm_num [c1WitnessInit]⟩,
   c1_fresh_network_zero_input_mean "no checkpoint" c1WitnessInit
     (by norm_num [c1WitnessInit]) (by norm_num [c1WitnessInit])
     (by norm_num [c1WitnessInit]) (by norm_num [c1WitnessInit])⟩

/-- C5: if loading the policy network from the checkpoint key fails,
`loadOrCreateNetwork` does not propagate the error (it is total and
returns the fresh fixed-template network); on success it returns the
loaded network unchanged. -/
theorem c5_load_failure_nonfatal (n : Stack) (e : String) (init : NetInit) :
    loadOrCreateNetwork (Except.ok n) init = n
    ∧ loadOrCreateNetwork (Except.error e) init = freshNetwork init :=
  ⟨rfl, rfl⟩

/-- C7: the TRPO optimizer is configured with discount factor 0.99 on the
Q-judge, 10 iterations for the Fisher solve, and a 10% curvature
subsample fraction. -/
theorem c7_trpo_constants :
    trpo.naturalPG.actionJudger.discount = 99 / 100
    ∧ trpo.naturalPG.iters = 10
    ∧ trpo.naturalPG.reduce.frac = 1 / 10 :=
  ⟨rfl, rfl, rfl⟩

theorem scaleVec_zero (l : List ℚ) : scaleVec l 0 = List.replicate l.length 0 := by
  simp [scaleVec]

/-- C9: the fresh network's recurrent Vanilla block is exactly the
initializer's output — the solid-color projection touches only the layers
of the markup net — while `setupVanilla` (never invoked) would have
projected the input weights and zeroed the state weights. -/
theorem c9_vanilla_untouched (e : String) (init : NetInit) (v : Vanilla) :
    (loadOrCreateNetwork (Except.error e) init).vanilla = init.vanilla
    ∧ (loadOrCreateNetwork (Except.error e) init).visionNet
        = (markupNet init).map projectOutSolidColors
    ∧ (setupVanilla v).stateWeights = List.replicate v.stateWeights.length 0
    ∧ (setupVanilla v).inputWeights = (projectOutSolidColorsFC
        { inCount := v.inCount, outCount := v.outCount,
          weights := v.inputWeights, biases := [] }).weights :=
  ⟨rfl, rfl, scaleVec_zero _, rfl⟩

theorem rleEncode_eq_nil {α : Type} [DecidableEq α] (l : List α) :
    rleEncode l = [] ↔ l = [] := by
  cases l with
  | nil => simp [rleEncode]
  | cons x xs =>
    cases h : rleEncode xs with
    | nil => simp [rleEncode, h]
    | cons p rest =>
      obtain ⟨n, y⟩ := p
      simp only [rleEncode, h]
      split <;> simp

theorem rle_round_trip {α : Type} [DecidableEq α] (l : List α) :
    rleDecode (rleEncode l) = l := by
  induction l with
  | nil => simp [rleEncode, rleDecode]
  | cons x xs ih =>
    cases h : rleEncode xs with
    | nil =>
      have hx : xs = [] := (rleEncode_eq_nil xs).mp h
      subst hx
      simp [rleEncode, rleDecode]
    | cons p rest =>
      obtain ⟨n, y⟩ := p
      rw [h] at ih
      by_cases hxy : x = y
      · subst hxy
        simp only [rleEncode, h, if_pos rfl, rleDecode]
        simp only [rleDecode] at ih
        rw [List.replicate_succ, List.cons_append, ih]
      · simp only [rleEncode, h, if_neg hxy, rleDecode]
        simp only [rleDecode] at ih
        simp [ih]

/-- C8: the observation tape is a lossless round-trip: every appended
uint8 observation batch, stored compressed, is reproduced exactly and in
order when read back. -/
theorem c8_tape_round_trip (batches : List (List (Fin 256))) :
    tapeRead (tapeStore batches) = batches := by
  rw [tapeRead, tapeStore, List.map_map]
  have hpt : ∀ b ∈ batches, (rleDecode ∘ rleEncode) b = id b :=
    fun b _ => rle_round_trip b
  rw [List.map_congr_left hpt, List.map_id]

theorem getD_replicate_zero (n i : ℕ) : (List.replicate n (0:ℚ)).getD i 0 = 0 := by
  rw [List.getD_eq_getElem?_getD, List.getElem?_replicate]
  split <;> simp

/-- C10: the fresh head is `NewFCZero 128 6`; its output is the all-zero
logit vector for every input, and the softmax distribution over those
logits is uniform over the 6 actions (for any exponential map `e` with
`e 0 ≠ 0`; the real `exp` has `exp 0 = 1`). -/
theorem c10_zero_head_uniform (e : String) (init : NetInit) (x : List ℚ)
    (ef : ℚ → ℚ) (he : ef 0 ≠ 0) :
    (loadOrCreateNetwork (Except.error e) init).head = NewFCZero 128 6
    ∧ FC.apply (NewFCZero 128 6) x = List.replicate 6 0
    ∧ softmax ef (FC.apply (NewFCZero 128 6) x) = List.replicate 6 (1 / 6) := by
  have happly : FC.apply (NewFCZero 128 6) x = List.replicate 6 0 := by
    rw [FC.apply]
    refine List.eq_replicate_iff.mpr
      ⟨by rw [List.length_map, List.length_range]; rfl, ?_⟩
    intro b hb
    obtain ⟨j, hj, rfl⟩ := List.mem_map.mp hb
    have h1 : ((List.range (NewFCZero 128 6).inCount).map fun i =>
        (NewFCZero 128 6).weights.getD (j * (NewFCZero 128 6).inCount + i) 0
          * x.getD i 0).sum = 0 := by
      apply List.sum_eq_zero
      intro y hy
      obtain ⟨i, _, rfl⟩ := List.mem_map.mp hy
      show (List.replicate (6 * 128) (0:ℚ)).getD _ 0 * x.getD i 0 = 0
      rw [getD_replicate_zero, zero_mul]
    rw [h1]
    show (0:ℚ) + (List.replicate 6 (0:ℚ)).getD j 0 = 0
    rw [getD_replicate_zero, add_zero]
  refine ⟨rfl, happly, ?_⟩
  rw [happly, softmax]
  simp only [List.map_replicate, List.sum_replicate]
  have h6 : (6:ℚ) * ef 0 ≠ 0 := mul_ne_zero (by norm_num) he
  have hval : ef 0 / ((6 : ℕ) • ef 0) = 1 / 6 := by
    rw [nsmul_eq_mul]
    push_cast
    rw [div_eq_div_iff h6 (by norm_num : (6:ℚ) ≠ 0)]
    ring
  rw [hval]

theorem stateInv_init : StateInv initSysState :=
  ⟨by simp [initSysState], by simp [initSysState], by simp [initSysState],
   fun _ => rfl, trivial⟩

theorem stateInv_step (s t : SysState) (hinv : StateInv s) (hstep : SysStep s t) :
    StateInv t := by
  obtain ⟨h1, h2, h3, h4, h5⟩ := hinv
  cases hstep with
  | computeGrad l mp p sv =>
    refine ⟨?_, fun h => h2 h, ?_, ?_, h5⟩
    · intro h
      rcases h with h | h | h <;> simp at h
    · intro h
      simp at h
    · intro _
      exact h4 (by simp)
  | acquireT mp p sv =>
    refine ⟨fun _ => rfl, ?_, ?_, ?_, h5⟩
    · intro h
      exact absurd (h2 h) (by simp)
    · intro h
      simp at h
    · intro _
      exact h4 (by simp)
  | applyFst l mp p sv =>
    refine ⟨?_, fun h => h2 h, ?_, ?_, h5⟩
    · intro _
      exact h1 (Or.inl rfl)
    · intro _
      have hp : p.1 = p.2 := h4 (by simp)
      show p.1 + 1 = p.2 + 1
      rw [hp]
    · intro h
      exact absurd rfl h
  | applySnd l mp p sv =>
    refine ⟨?_, fun h => h2 h, ?_, ?_, h5⟩
    · intro _
      exact h1 (Or.inr (Or.inl rfl))
    · intro h
      simp at h
    · intro _
      exact h3 rfl
  | releaseT l mp p sv =>
    refine ⟨?_, ?_, ?_, ?_, h5⟩
    · intro h
      rcases h with h | h | h <;> simp at h
    · intro h
      have e1 := h1 (Or.inr (Or.inr rfl))
      have e2 := h2 h
      rw [e1] at e2
      simp at e2
    · intro h
      simp at h
    · intro _
      exact h4 (by simp)
  | signal l tp p sv =>
    refine ⟨fun h => h1 h, ?_, fun h => h3 h, fun h => h4 h, h5⟩
    · intro h
      rcases h with h | h <;> simp at h
  | acquireM tp p sv =>
    refine ⟨?_, fun _ => rfl, fun h => h3 h, fun h => h4 h, h5⟩
    · intro h
      exact absurd (h1 h) (by simp)
  | doSave l tp p sv =>
    refine ⟨fun h => h1 h, fun _ => h2 (Or.inl rfl), fun h => h3 h,
      fun h => h4 h, ?_⟩
    show p.1 = p.2
    have hm := h2 (Or.inl rfl)
    have ht : tp ≠ TrainPhase.apply2 := by
      intro hh
      have he := h1 (Or.inr (Or.inl hh))
      rw [hm] at he
      simp at he
    exact h4 ht

theorem reach_stateInv (s : SysState) (h : Reach s) : StateInv s := by
  have h2 : Relation.ReflTransGen SysStep initSysState s := h
  clear h
  induction h2 with
  | refl => exact stateInv_init
  | tail _ hstep ih => exact stateInv_step _ _ ih hstep

theorem lockHeldDuringApply_holds : LockHeldDuringApply := by
  intro s hs hp
  obtain ⟨h1, _, _, _, _⟩ := reach_stateInv s hs
  rcases hp with h | h
  · exact h1 (Or.inl h)
  · exact h1 (Or.inr (Or.inl h))

/-- C2 (amended): in every interleaving, the save never executes between
the start and the end of `grad.AddToVars`: whenever the main goroutine is
at the save, it holds the lock and the trainer is not mid-application; the
lock is held by the trainer throughout the application; hence the saved
network never reflects a partially-applied update.  (The gradient itself
is computed before the lock is taken, so a save may occur between
computation and application; it then observes consistent pre-update
parameters.) -/
theorem c2_save_never_mid_update (s : SysState) (h : Reach s) :
    (s.mpc = MainPhase.save → s.lock = some Owner.main
      ∧ s.tpc ≠ TrainPhase.apply1 ∧ s.tpc ≠ TrainPhase.apply2)
    ∧ ((s.tpc = TrainPhase.apply1 ∨ s.tpc = TrainPhase.apply2) →
        s.lock = some Owner.trainer)
    ∧ savedConsistent s := by
  obtain ⟨h1, h2, h3, h4, h5⟩ := reach_stateInv s h
  refine ⟨?_, lockHeldDuringApply_holds s h, h5⟩
  intro hm
  have hmain := h2 (Or.inl hm)
  refine ⟨hmain, ?_, ?_⟩
  · intro ht
    have he := h1 (Or.inl ht)
    rw [hmain] at he
    simp at he
  · intro ht
    have he := h1 (Or.inr (Or.inl ht))
    rw [hmain] at he
    simp at he

/-- Witness for C2: the amended theorem applied at the (trivially
reachable) initial state. -/
theorem c2_save_never_mid_update_witness :
    (initSysState.mpc = MainPhase.save → initSysState.lock = some Owner.main
      ∧ initSysState.tpc ≠ TrainPhase.apply1
      ∧ initSysState.tpc ≠ TrainPhase.apply2)
    ∧ ((initSysState.tpc = TrainPhase.apply1
        ∨ initSysState.tpc = TrainPhase.apply2) →
        initSysState.lock = some Owner.trainer)
    ∧ savedConsistent initSysState :=
  c2_save_never_mid_update initSysState Relation.ReflTransGen.refl

/-- C2 counterexample to the claim as stated: a reachable state in which
the gradient has been computed (the trainer sits at the `Lock` call,
`tpc = lockT`) and not yet applied, while a save has already executed —
so the lock is not held for the entire span from "gradient computed"
through "gradient applied", and a save can execute inside that span. -/
theorem c2_lock_span_counterexample :
    Reach c2TraceState
    ∧ c2TraceState.tpc = TrainPhase.lockT
    ∧ c2TraceState.saved = some (0, 0)
    ∧ c2TraceState.lock ≠ some Owner.trainer := by
  refine ⟨?_, rfl, rfl, by simp [c2TraceState]⟩
  have s1 : SysStep initSysState
      ⟨none, TrainPhase.lockT, MainPhase.wait, (0, 0), none⟩ :=
    SysStep.computeGrad none MainPhase.wait (0, 0) none
  have s2 : SysStep ⟨none, TrainPhase.lockT, MainPhase.wait, (0, 0), none⟩
      ⟨none, TrainPhase.lockT, MainPhase.lockM, (0, 0), none⟩ :=
    SysStep.signal none TrainPhase.lockT (0, 0) none
  have s3 : SysStep ⟨none, TrainPhase.lockT, MainPhase.lockM, (0, 0), none⟩
      ⟨some Owner.main, TrainPhase.lockT, MainPhase.save, (0, 0), none⟩ :=
    SysStep.acquireM TrainPhase.lockT (0, 0) none
  have s4 : SysStep ⟨some Owner.main, TrainPhase.lockT, MainPhase.save, (0, 0), none⟩
      c2TraceState :=
    SysStep.doSave (some Owner.main) TrainPhase.lockT (0, 0) none
  exact (((Relation.ReflTransGen.refl.tail s1).tail s2).tail s3).tail s4

theorem gather_take (target : ℕ) :
    ∀ (l : List RolloutSet) (s : ℕ), ∃ k, gatherRollouts target s l = l.take k := by
  intro l
  induction l with
  | nil => intro s; exact ⟨0, rfl⟩
  | cons r rest ih =>
    intro s
    by_cases h : s < target
    · obtain ⟨k, hk⟩ := ih (s + r.numSteps)
      exact ⟨k + 1, by simp [gatherRollouts, if_pos h, hk]⟩
    · exact ⟨0, by simp [gatherRollouts, if_neg h]⟩

theorem gather_sum_ge (target : ℕ) :
    ∀ (l : List RolloutSet) (s : ℕ),
      target ≤ s + (l.map RolloutSet.numSteps).sum →
      target ≤ s + ((gatherRollouts target s l).map RolloutSet.numSteps).sum := by
  intro l
  induction l with
  | nil =>
    intro s h
    simpa using h
  | cons r rest ih =>
    intro s h
    by_cases hlt : s < target
    · simp only [gatherRollouts, if_pos hlt, List.map_cons, List.sum_cons]
      have hr := ih (s + r.numSteps) (by
        simp only [List.map_cons, List.sum_cons] at h
        omega)
      omega
    · simp only [gatherRollouts, if_neg hlt, List.map_nil, List.sum_nil]
      omega

theorem gather_min (target : ℕ) :
    ∀ (l : List RolloutSet) (s j : ℕ),
      j < (gatherRollouts target s l).length →
      s + (((gatherRollouts target s l).take j).map RolloutSet.numSteps).sum
        < target := by
  intro l
  induction l with
  | nil =>
    intro s j hj
    simp [gatherRollouts] at hj
  | cons r rest ih =>
    intro s j hj
    by_cases hlt : s < target
    · simp only [gatherRollouts, if_pos hlt] at hj ⊢
      cases j with
      | zero => simpa using hlt
      | succ k =>
        simp only [List.length_cons] at hj
        have hk := ih (s + r.numSteps) k (by omega)
        simp only [List.take_succ_cons, List.map_cons, List.sum_cons]
        omega
    · simp only [gatherRollouts, if_neg hlt] at hj
      simp at hj

theorem gather_ne_nil (target : ℕ) (r : RolloutSet) (rest : List RolloutSet)
    (ht : 0 < target) : gatherRollouts target 0 (r :: rest) ≠ [] := by
  simp [gatherRollouts, if_pos ht]

theorem pack_numSteps (rs : List RolloutSet) :
    (PackRolloutSets rs).numSteps = (rs.map RolloutSet.numSteps).sum := by
  induction rs with
  | nil => rfl
  | cons a rs ih =>
    simp only [PackRolloutSets, RolloutSet.numSteps, List.map_cons,
      List.flatten_cons, List.map_append, List.sum_append, List.sum_cons] at ih ⊢
    rw [ih]

/-- C3: each training iteration calls `Rollout` repeatedly, accumulating
`NumSteps`, and stops exactly when the running total first reaches or
exceeds `BatchSteps`: the collected rollouts are a prefix of the stream,
at least one is collected, their total meets the target while every
proper prefix stays below it; packing them yields one set whose step
count is their sum, and the update is applied under the lock. -/
theorem c3_gather_until_target (stream : List RolloutSet)
    (h : BatchSteps ≤ (stream.map RolloutSet.numSteps).sum) :
    gatherRollouts BatchSteps 0 stream ≠ []
    ∧ (∃ k, gatherRollouts BatchSteps 0 stream = stream.take k)
    ∧ BatchSteps ≤ ((gatherRollouts BatchSteps 0 stream).map RolloutSet.numSteps).sum
    ∧ (∀ j, j < (gatherRollouts BatchSteps 0 stream).length →
        (((gatherRollouts BatchSteps 0 stream).take j).map RolloutSet.numSteps).sum
          < BatchSteps)
    ∧ (PackRolloutSets (gatherRollouts BatchSteps 0 stream)).numSteps
        = ((gatherRollouts BatchSteps 0 stream).map RolloutSet.numSteps).sum
    ∧ LockHeldDuringApply := by
  have hne : stream ≠ [] := by
    intro hnil
    subst hnil
    simp [BatchSteps] at h
  obtain ⟨r, rest, rfl⟩ := List.exists_cons_of_ne_nil hne
  refine ⟨gather_ne_nil _ _ _ (by norm_num [BatchSteps]), gather_take _ _ 0,
    by simpa using gather_sum_ge BatchSteps (r :: rest) 0 (by simpa using h),
    fun j hj => by simpa using gather_min BatchSteps (r :: rest) 0 j hj,
    pack_numSteps _, lockHeldDuringApply_holds⟩

/-- Witness for C3: the hypothesis holds at a concrete one-element stream
carrying exactly 100000 steps, and the theorem applies there. -/
theorem c3_gather_until_target_witness :
    (BatchSteps ≤ (c3Stream.map RolloutSet.numSteps).sum)
    ∧ (gatherRollouts BatchSteps 0 c3Stream ≠ []
      ∧ (∃ k, gatherRollouts BatchSteps 0 c3Stream = c3Stream.take k)
      ∧ BatchSteps ≤ ((gatherRollouts BatchSteps 0 c3Stream).map
          RolloutSet.numSteps).sum
      ∧ (∀ j, j < (gatherRollouts BatchSteps 0 c3Stream).length →
          (((gatherRollouts BatchSteps 0 c3Stream).take j).map
            RolloutSet.numSteps).sum < BatchSteps)
      ∧ (PackRolloutSets (gatherRollouts BatchSteps 0 c3Stream)).numSteps
          = ((gatherRollouts BatchSteps 0 c3Stream).map RolloutSet.numSteps).sum
      ∧ LockHeldDuringApply) :=
  ⟨by
    simp only [c3Stream, RolloutSet.numSteps, List.map_cons, List.map_nil,
      List.length_replicate, List.sum_cons, List.sum_nil, BatchSteps]
    omega,
   c3_gather_until_target c3Stream
     (by
      simp only [c3Stream, RolloutSet.numSteps, List.map_cons, List.map_nil,
        List.length_replicate, List.sum_cons, List.sum_nil, BatchSteps]
      omega)⟩

/-- C4 counterexample: on the spec's own scenario the union of reward
samples is `[1, 0, 1, 0]`; its mean is 1/2 as claimed, but the standard
unbiased (Bessel-corrected) variance estimator gives 1/3, not the claimed
0.25. -/
theorem c4_unbiased_variance_counterexample :
    meanSpec (PackRolloutSets [{ rewards := [[1, 0], [1, 0]] }]).rewardSamples = 1 / 2
    ∧ varianceUnbiased
        (PackRolloutSets [{ rewards := [[1, 0], [1, 0]] }]).rewardSamples ≠ 1 / 4
    ∧ varianceUnbiased
        (PackRolloutSets [{ rewards := [[1, 0], [1, 0]] }]).rewardSamples = 1 / 3 := by
  refine ⟨?_, ?_, ?_⟩ <;>
    norm_num [meanSpec, varianceUnbiased, PackRolloutSets, RolloutSet.rewardSamples]

/-- C4 (amended): in the concrete scenario (2 trajectories of rewards
`[1, 0]`, step target 2) the loop collects exactly one rollout set, the
packed result holds 2 trajectories of length 2 (4 total steps), the mean
over the union `[1, 0, 1, 0]` is 0.5, the unbiased variance is 1/3, and
the claimed 0.25 is the population (biased) variance. -/
theorem c4_pack_scenario_amended :
    gatherRollouts 2 0 [{ rewards := [[1, 0], [1, 0]] },
        { rewards := [[1, 0], [1, 0]] }]
      = [{ rewards := [[1, 0], [1, 0]] }]
    ∧ (PackRolloutSets [{ rewards := [[1, 0], [1, 0]] }]).rewards.length = 2
    ∧ (∀ tr ∈ (PackRolloutSets [{ rewards := [[1, 0], [1, 0]] }]).rewards,
        tr.length = 2)
    ∧ (PackRolloutSets [{ rewards := [[1, 0], [1, 0]] }]).numSteps = 4
    ∧ meanSpec (PackRolloutSets [{ rewards := [[1, 0], [1, 0]] }]).rewardSamples
        = 1 / 2
    ∧ varianceUnbiased
        (PackRolloutSets [{ rewards := [[1, 0], [1, 0]] }]).rewardSamples = 1 / 3
    ∧ variancePop
        (PackRolloutSets [{ rewards := [[1, 0], [1, 0]] }]).rewardSamples = 1 / 4 := by
  refine ⟨?_, rfl, ?_, rfl, ?_, ?_, ?_⟩
  · norm_num [gatherRollouts, RolloutSet.numSteps]
  · intro tr htr
    simp only [PackRolloutSets, List.map_cons, List.map_nil, List.flatten_cons,
      List.flatten_nil, List.append_nil, List.mem_cons, List.not_mem_nil,
      or_false] at htr
    rcases htr with rfl | rfl <;> rfl
  all_goals
    norm_num [meanSpec, varianceUnbiased, variancePop, PackRolloutSets,
      RolloutSet.rewardSamples]

/-- Witness for C10: the hypothesis `ef 0 ≠ 0` holds for the constant
function 1, and the theorem applies there. -/
theorem c10_zero_head_uniform_witness :
    ((fun _ : ℚ => (1:ℚ)) 0 ≠ 0)
    ∧ ((loadOrCreateNetwork (Except.error "gone") c10Init).head = NewFCZero 128 6
      ∧ FC.apply (NewFCZero 128 6) [] = List.replicate 6 0
      ∧ softmax (fun _ : ℚ => (1:ℚ)) (FC.apply (NewFCZero 128 6) [])
          = List.replicate 6 (1 / 6)) :=
  ⟨by norm_num,
   c10_zero_head_uniform "gone" c10Init [] (fun _ => 1) (by norm_num)⟩

theorem buildEnvs_spec (mkClient : ℕ → Except String GymClient)
    (mkEnv : GymClient → Except String GymEnvHandle) :
    ∀ (n i : ℕ),
      ((isOk (buildEnvs mkClient mkEnv i n) = true)
        ↔ ∀ j, j < n → isOk (makeEnvSlot mkClient mkEnv (i + j)) = true)
      ∧ (∀ pool, buildEnvs mkClient mkEnv i n = Except.ok pool →
          pool.length = n) := by
  intro n
  induction n with
  | zero =>
    intro i
    refine ⟨by simp [buildEnvs, isOk], ?_⟩
    intro pool hp
    simp only [buildEnvs] at hp
    cases hp
    rfl
  | succ k ih =>
    intro i
    constructor
    · constructor
      · intro hok j hj
        cases hslot : makeEnvSlot mkClient mkEnv i with
        | error e =>
          simp only [buildEnvs, hslot] at hok
          simp [isOk] at hok
        | ok env =>
          cases hrest : buildEnvs mkClient mkEnv (i + 1) k with
          | error e2 =>
            simp only [buildEnvs, hslot, hrest] at hok
            simp [isOk] at hok
          | ok rest =>
            have hall := ((ih (i + 1)).1).mp (by rw [hrest]; rfl)
            cases j with
            | zero =>
              rw [Nat.add_zero, hslot]
              rfl
            | succ m =>
              have hm := hall m (by omega)
              rw [show i + (m + 1) = i + 1 + m by omega]
              exact hm
      · intro hall
        have h0 := hall 0 (Nat.succ_pos k)
        rw [Nat.add_zero] at h0
        cases hslot : makeEnvSlot mkClient mkEnv i with
        | error e =>
          rw [hslot] at h0
          simp [isOk] at h0
        | ok env =>
          have hrest : isOk (buildEnvs mkClient mkEnv (i + 1) k) = true := by
            apply ((ih (i + 1)).1).mpr
            intro j hj
            have hm := hall (j + 1) (by omega)
            rw [show i + (j + 1) = i + 1 + j by omega] at hm
            exact hm
          cases hre : buildEnvs mkClient mkEnv (i + 1) k with
          | error e2 =>
            rw [hre] at hrest
            simp [isOk] at hrest
          | ok rest =>
            simp only [buildEnvs, hslot, hre]
            rfl
    · intro pool hp
      cases hslot : makeEnvSlot mkClient mkEnv i with
      | error e =>
        simp only [buildEnvs, hslot] at hp
        cases hp
      | ok env =>
        cases hre : buildEnvs mkClient mkEnv (i + 1) k with
        | error e2 =>
          simp only [buildEnvs, hslot, hre] at hp
          cases hp
        | ok rest =>
          simp only [buildEnvs, hslot, hre] at hp
          have hlen := (ih (i + 1)).2 rest hre
          cases hp
          simp [hlen]

/-- C6: startup builds the pool of `ParallelEnvs` environments, treating
any client-connection or wrapper-construction failure as fatal: the
construction succeeds exactly when every slot succeeds (so the process
never proceeds past a partial pool), and on success the pool has exactly
`ParallelEnvs` environments. -/
theorem c6_pool_all_or_nothing (mkClient : ℕ → Except String GymClient)
    (mkEnv : GymClient → Except String GymEnvHandle) :
    ((isOk (createEnvironments mkClient mkEnv) = true)
      ↔ ∀ i, i < ParallelEnvs → isOk (makeEnvSlot mkClient mkEnv i) = true)
    ∧ (∀ pool, createEnvironments mkClient mkEnv = Except.ok pool →
        pool.length = ParallelEnvs) := by
  have h := buildEnvs_spec mkClient mkEnv ParallelEnvs 0
  refine ⟨?_, h.2⟩
  have h1 := h.1
  simpa using h1

end PongConv
